import Mathlib

/-!
Verification of the capture/replay subsystem (`src/dataflow/operators/capture.rs`).

The development embeds the data model and the operations of the file:
the `Event` type, the shared in-memory log (`EventLink` behind `Rc`,
modelled as an explicit heap of nodes addressed by indices), the binary
`EventWriter`/`EventReader` (with the external serialization codec kept
abstract), and the capture/replay operator callbacks
(`set_external_summary`, `push_external_progress`,
`get_internal_summary`, `pull_internal_progress`).
-/

namespace TimelyCapture

/-- Events of the captured stream, from `enum Event<T, D>` in the source:
a `Start` sentinel, a batch of signed progress deltas, or a batch of
data records at one timestamp. -/
inductive Event (T D : Type) where
  | Start : Event T D
  | Progress : List (T × Int) → Event T D
  | Messages : T → List D → Event T D
deriving DecidableEq, Repr

/-- Modelled from the spec: `CountMap<T>` lives in the progress-tracking
collaborator (`progress/count_map.rs`), which is not part of the captured
source file.  The spec describes it as signed delta counts per timestamp,
summed over time, whose content can be extracted as an ordered list of
(timestamp, signed count) pairs; we model it as that list. -/
abbrev CountMap (T : Type) := List (T × Int)

/-- Modelled from the spec: `CountMap::update(time, delta)` accumulates a
signed delta into the per-timestamp count, dropping entries whose count
returns to zero. -/
def CountMap.update {T : Type} [DecidableEq T] : CountMap T → T → Int → CountMap T
  | [], t, d => if d = 0 then [] else [(t, d)]
  | (t', d') :: rest, t, d =>
    if t' = t then
      (if d' + d = 0 then rest else (t', d' + d) :: rest)
    else
      (t', d') :: CountMap.update rest t d

/-- The signed count a `CountMap` (or any delta list) holds for a
timestamp: the sum of the deltas of the entries with that timestamp. -/
def CountMap.count {T : Type} [DecidableEq T] (m : CountMap T) (t : T) : Int :=
  m.foldr (fun p a => if p.1 = t then p.2 + a else a) 0

/-- Folding a batch of (timestamp, delta) pairs into a `CountMap` with
`update`, in order; this is the loop `for (time, delta) in vec {
m.update(time, delta) }` used by the replay operator. -/
def applyBatch {T : Type} [DecidableEq T] (m : CountMap T) (b : List (T × Int)) : CountMap T :=
  b.foldl (fun m p => m.update p.1 p.2) m

/-- A node of the in-memory log: `EventLink { event, next }`.  The
`Rc<EventLink>` pointers of the source become indices into an explicit
heap of nodes, and the `RefCell<Option<Rc<...>>>` successor becomes an
`Option Nat`. -/
structure LinkNode (T D : Type) where
  event : Event T D
  next : Option Nat
deriving DecidableEq, Repr

/-- The heap of log nodes shared by all producer and consumer handles. -/
structure LogState (T D : Type) where
  nodes : List (LinkNode T D)
deriving DecidableEq, Repr

/-- A fresh log: `EventLink::new()` — a single node holding the `Start`
sentinel with no successor; every handle starts here at index 0. -/
def initLog {T D : Type} : LogState T D := ⟨[⟨Event.Start, none⟩]⟩

/-- Overwrite the successor pointer of the node at index `h`
(`*self.next.borrow_mut() = ...`); no-op when `h` is out of bounds. -/
def setNext {T D : Type} : List (LinkNode T D) → Nat → Option Nat → List (LinkNode T D)
  | [], _, _ => []
  | nd :: rest, 0, j => { nd with next := j } :: rest
  | nd :: rest, n + 1, j => nd :: setNext rest n j

/-- `EventPusher::push` for `Rc<EventLink>`: allocate a new node holding
`event` with no successor, link it as the successor of the node the
producer handle `h` points at, and advance the handle to the new node. -/
def push {T D : Type} (st : LogState T D) (h : Nat) (e : Event T D) : LogState T D × Nat :=
  let newIdx := st.nodes.length
  (⟨setNext (st.nodes ++ [⟨e, none⟩]) h (some newIdx)⟩, newIdx)

/-- `EventIterator::next` for `Rc<EventLink>`: if the node the consumer
handle points at has a successor, advance the handle to the successor and
return its event; otherwise return `none`, leaving the handle in place. -/
def linkNext {T D : Type} (st : LogState T D) (h : Nat) : Option (Event T D) × Nat :=
  match st.nodes[h]? with
  | some nd =>
    match nd.next with
    | some j =>
      match st.nodes[j]? with
      | some nd2 => (some nd2.event, j)
      | none => (none, h)
    | none => (none, h)
  | none => (none, h)

/-- Push a list of events one after the other from a producer handle. -/
def pushList {T D : Type} (st : LogState T D) (h : Nat) : List (Event T D) → LogState T D × Nat
  | [] => (st, h)
  | e :: es =>
    let r := push st h e
    pushList r.1 r.2 es

/-- The node list of a chain whose events, in order, are `l`, starting at
heap index `i`: each node points at the next one, the last has no
successor. -/
def mkNodes {T D : Type} : Nat → List (Event T D) → List (LinkNode T D)
  | _, [] => []
  | i, e :: es => ⟨e, if es.isEmpty then none else some (i + 1)⟩ :: mkNodes (i + 1) es

/-- The log obtained by pushing `es`, in order, onto a fresh log: the
`Start` sentinel followed by a chain of the pushed events. -/
def mkChain {T D : Type} (es : List (Event T D)) : LogState T D :=
  ⟨mkNodes 0 (Event.Start :: es)⟩

/-- One `next()` call of a consumer: on success the handle advances and
the returned event is appended to the consumer's observation list; on
`none` the handle and observations are unchanged. -/
def consume {T D : Type} (st : LogState T D) (c : Nat × List (Event T D)) :
    Nat × List (Event T D) :=
  match linkNext st c.1 with
  | (some e, h2) => (h2, c.2 ++ [e])
  | (none, _) => c

/-- Iterated `next()` calls of a single consumer. -/
def consumeN {T D : Type} (st : LogState T D) : Nat → Nat × List (Event T D) → Nat × List (Event T D)
  | 0, c => c
  | k + 1, c => consumeN st k (consume st c)

/-- An arbitrary interleaving of `next()` calls by two consumers:
`true` steps the first handle, `false` the second. -/
def runSched {T D : Type} (st : LogState T D) :
    List Bool → Nat × List (Event T D) → Nat × List (Event T D) →
      (Nat × List (Event T D)) × (Nat × List (Event T D))
  | [], c1, c2 => (c1, c2)
  | true :: s, c1, c2 => runSched st s (consume st c1) c2
  | false :: s, c1, c2 => runSched st s c1 (consume st c2)

/-- `CaptureOperator::set_external_summary`: push one Progress event
holding the current content of `counts[0]` (`clone().into_inner()`),
then clear `counts[0]`.  Returns the pushed event and the new (cleared)
value of `counts[0]`. -/
def setExternalSummary {T D : Type} (counts : CountMap T) : Event T D × CountMap T :=
  (Event.Progress counts, [])

/-- `CaptureOperator::push_external_progress`: textually the same body
as `set_external_summary` — push the accumulated delta batch, clear the
accumulator. -/
def pushExternalProgress {T D : Type} (counts : CountMap T) : Event T D × CountMap T :=
  (Event.Progress counts, [])

/-- The event-pushing loop of `CaptureOperator::pull_internal_progress`:
drain every available input batch, pushing one `Messages(time, batch)`
event per consumed batch, in consumption order. -/
def capturePull {T D : Type} (inputs : List (T × List D)) : List (Event T D) :=
  inputs.map (fun p => Event.Messages p.1 p.2)

/-- One interaction of the host scheduler with the capture operator:
either an external progress notification carrying a delta batch, or a
scheduling invocation making a list of input batches available. -/
inductive CapOp (T D : Type) where
  | extProgress : List (T × Int) → CapOp T D
  | sched : List (T × List D) → CapOp T D
deriving DecidableEq, Repr

/-- The events the capture operator pushes over a schedule of host
interactions, in push order. -/
def captureEvents {T D : Type} : List (CapOp T D) → List (Event T D)
  | [] => []
  | CapOp.extProgress c :: rest => (pushExternalProgress (D := D) c).1 :: captureEvents rest
  | CapOp.sched ins :: rest => capturePull ins ++ captureEvents rest

/-- The capture operator's interaction with its external-progress
accumulator over successive notifications: before each call the host
folds the newly observed delta batch into `counts[0]`; the call pushes
one Progress event and leaves the accumulator behind. -/
def capProgressRun {T D : Type} [DecidableEq T] :
    List (List (T × Int)) → CountMap T → List (Event T D) × CountMap T
  | [], counts => ([], counts)
  | b :: bs, counts =>
    let merged := applyBatch counts b
    let r := pushExternalProgress (D := D) merged
    let rest := capProgressRun bs r.2
    (r.1 :: rest.1, rest.2)

/-- The data records of a capture schedule in consumption order: for
each input batch its records tagged with the batch timestamp, batches in
consumption order.  This is the reference ordering the spec demands
replay reproduce. -/
def capturedRecords {T D : Type} : List (CapOp T D) → List (T × D)
  | [] => []
  | CapOp.extProgress _ :: rest => capturedRecords rest
  | CapOp.sched ins :: rest =>
      (ins.flatMap (fun p => p.2.map (fun d => (p.1, d)))) ++ capturedRecords rest

/-- The per-timestamp sum of all progress deltas a capture schedule
observes; the reference quantity of the conservation law. -/
def capturedDeltaSum {T D : Type} [DecidableEq T] : List (CapOp T D) → T → Int
  | [], _ => 0
  | CapOp.extProgress b :: rest, t => CountMap.count b t + capturedDeltaSum rest t
  | CapOp.sched _ :: rest, t => capturedDeltaSum rest t

/-- The polling loop of `ReplayOperator::get_internal_summary`: skip
unavailable (`none`) responses of the consumer until an event is
available; return it with the remaining responses, or `none` when the
response sequence is exhausted (the loop never returns). -/
def pollFirst {T D : Type} :
    List (Option (Event T D)) → Option (Event T D × List (Option (Event T D)))
  | [] => none
  | none :: rest => pollFirst rest
  | some e :: rest => some (e, rest)

/-- `ReplayOperator::get_internal_summary`: poll until an event is
available; if it is `Progress(vec)` fold its deltas into a fresh
`CountMap` and return that as the initial internal summary, otherwise
return an empty `CountMap`; either way the first available event is
consumed.  The outer `none` models the nonterminating loop when the
consumer never yields an event. -/
def getInternalSummary {T D : Type} [DecidableEq T] (responses : List (Option (Event T D))) :
    Option (CountMap T × List (Option (Event T D))) :=
  match pollFirst responses with
  | none => none
  | some (Event.Progress vec, rest) => some (applyBatch [] vec, rest)
  | some (_, rest) => some ([], rest)

/-- `ReplayOperator::pull_internal_progress`: drain all events; `Start`
is ignored, `Progress(vec)` folds each delta into `internal[0]`,
`Messages(time, data)` opens an output session scoped to `time` and
emits each record of the batch in order.  Returns the final
`internal[0]` and the emitted records in emission order. -/
def replayPull {T D : Type} [DecidableEq T] :
    List (Event T D) → CountMap T → List (T × D) → CountMap T × List (T × D)
  | [], internal, out => (internal, out)
  | Event.Start :: rest, internal, out => replayPull rest internal out
  | Event.Progress vec :: rest, internal, out => replayPull rest (applyBatch internal vec) out
  | Event.Messages t ds :: rest, internal, out =>
      replayPull rest internal (out ++ ds.map (fun d => (t, d)))

/-- The records a list of events makes the replay operator emit, in
emission order. -/
def replayRecords {T D : Type} : List (Event T D) → List (T × D)
  | [] => []
  | Event.Start :: rest => replayRecords rest
  | Event.Progress _ :: rest => replayRecords rest
  | Event.Messages t ds :: rest => ds.map (fun d => (t, d)) ++ replayRecords rest

/-- The per-timestamp sum of the deltas of all Progress events of a
log. -/
def totalDeltas {T D : Type} [DecidableEq T] : List (Event T D) → T → Int
  | [], _ => 0
  | Event.Start :: rest, t => totalDeltas rest t
  | Event.Progress vec :: rest, t => CountMap.count vec t + totalDeltas rest t
  | Event.Messages _ _ :: rest, t => totalDeltas rest t

/-- Outcome of one `read` call on the underlying byte source of an
`EventReader`: `Ok` with the bytes read, or `Err`. -/
inductive ReadResult where
  | ok : List Nat → ReadResult
  | err : ReadResult
deriving DecidableEq, Repr

/-- The state of an `EventReader`: the receive buffer `buff1`, the
consumed offset, the `valid` watermark, and the pending responses of the
underlying source, consumed one per `read` call (bytes are modelled as
`Nat`). -/
structure ReaderState where
  buff1 : List Nat
  consumed : Nat
  valid : Nat
  reads : List ReadResult
deriving DecidableEq, Repr

/-- `EventReader::next`, with the external serialization codec left
abstract: `decode` maps the byte slice starting at the consumed offset
to an optional decoded event together with the length of the remaining
slice (`rest.len()` in the source).  On success the consumed offset
becomes `valid - rest.len()` and nothing else changes; on failure the
buffer is compacted when `consumed > 0`, one `read` is performed, an
`Ok(bytes)` read appends the bytes and refreshes `valid`, an `Err` read
changes nothing, and the call returns none either way. -/
def readerNext {T D : Type} (decode : List Nat → Option (Event T D × Nat))
    (st : ReaderState) : Option (Event T D) × ReaderState :=
  match decode (st.buff1.drop st.consumed) with
  | some (item, restLen) => (some item, { st with consumed := st.valid - restLen })
  | none =>
    let st1 := if 0 < st.consumed then
        { st with buff1 := st.buff1.drop st.consumed,
                  valid := (st.buff1.drop st.consumed).length,
                  consumed := 0 }
      else st
    match st1.reads with
    | ReadResult.ok chunk :: rs =>
        (none, { st1 with buff1 := st1.buff1 ++ chunk,
                          valid := (st1.buff1 ++ chunk).length,
                          reads := rs })
    | ReadResult.err :: rs => (none, { st1 with reads := rs })
    | [] => (none, st1)

/-- The state of an `EventWriter`: the scratch buffer and the sequence
of `write_all` calls already issued to the sink, each carrying the full
byte payload of one call. -/
structure WriterState where
  buffer : List Nat
  written : List (List Nat)
deriving DecidableEq, Repr

/-- `EventWriter::push`, with the external serialization codec left
abstract: `encode` appends the serialized event to the scratch buffer;
the whole buffer is then written to the sink in a single `write_all`
call whose outcome is `ok`; on success the buffer is cleared, on
failure `unwrap` aborts the process, modelled as `none`. -/
def writerPush {T D : Type} (encode : Event T D → List Nat)
    (st : WriterState) (e : Event T D) (ok : Bool) : Option WriterState :=
  let buf := st.buffer ++ encode e
  if ok then some { buffer := [], written := st.written ++ [buf] } else none

theorem CountMap.count_nil {T : Type} [DecidableEq T] (t : T) :
    CountMap.count ([] : CountMap T) t = 0 := rfl

theorem CountMap.count_cons {T : Type} [DecidableEq T] (p : T × Int) (m : CountMap T) (t : T) :
    CountMap.count (p :: m) t = (if p.1 = t then p.2 else 0) + CountMap.count m t := by
  by_cases h : p.1 = t <;> simp [CountMap.count, h]

theorem CountMap.count_update {T : Type} [DecidableEq T] (m : CountMap T) (t u : T) (d : Int) :
    CountMap.count (CountMap.update m t d) u
      = CountMap.count m u + (if t = u then d else 0) := by
  induction m with
  | nil =>
    by_cases hd : d = 0
    · subst hd
      simp [CountMap.update, CountMap.count]
    · by_cases ht : t = u <;>
        simp [CountMap.update, hd, CountMap.count, ht]
  | cons p rest ih =>
    obtain ⟨t', d'⟩ := p
    by_cases h1 : t' = t
    · subst h1
      by_cases h2 : d' + d = 0
      · by_cases h3 : t' = u
        · subst h3
          have : d = -d' := by omega
          simp [CountMap.update, h2, CountMap.count_cons]
          omega
        · simp [CountMap.update, h2, CountMap.count_cons, h3]
      · by_cases h3 : t' = u
        · subst h3
          simp [CountMap.update, h2, CountMap.count_cons]
          ring
        · simp [CountMap.update, h2, CountMap.count_cons, h3]
    · by_cases h3 : t' = u
      · subst h3
        have ht : ¬ t = t' := fun h => h1 h.symm
        simp [CountMap.update, h1, CountMap.count_cons, ih, ht]
      · simp [CountMap.update, h1, CountMap.count_cons, h3, ih]

theorem count_applyBatch {T : Type} [DecidableEq T] (b : List (T × Int)) (m : CountMap T) (u : T) :
    CountMap.count (applyBatch m b) u = CountMap.count m u + CountMap.count b u := by
  induction b generalizing m with
  | nil => simp [applyBatch, CountMap.count]
  | cons p rest ih =>
    obtain ⟨t, d⟩ := p
    have : applyBatch m ((t, d) :: rest) = applyBatch (CountMap.update m t d) rest := rfl
    rw [this, ih, CountMap.count_update, CountMap.count_cons]
    ring

theorem mkNodes_length {T D : Type} (l : List (Event T D)) :
    ∀ i, (mkNodes i l).length = l.length := by
  induction l with
  | nil => intro i; rfl
  | cons e es ih => intro i; simp [mkNodes, ih]

theorem setNext_length {T D : Type} (l : List (LinkNode T D)) :
    ∀ h j, (setNext l h j).length = l.length := by
  induction l with
  | nil => intro h j; rfl
  | cons nd rest ih =>
    intro h j
    cases h with
    | zero => rfl
    | succ n => simp [setNext, ih]

theorem setNext_getElem? {T D : Type} (l : List (LinkNode T D)) :
    ∀ h j i, (setNext l h j)[i]? =
      if i = h then l[i]?.map (fun nd => { nd with next := j }) else l[i]? := by
  induction l with
  | nil => intro h j i; simp [setNext]
  | cons nd rest ih =>
    intro h j i
    cases h with
    | zero =>
      cases i with
      | zero => simp [setNext]
      | succ k => simp [setNext]
    | succ n =>
      cases i with
      | zero => simp [setNext]
      | succ k =>
        simp only [setNext, List.getElem?_cons_succ]
        rw [ih]
        by_cases hk : k = n
        · simp [hk]
        · simp [hk, Nat.succ_ne_succ, fun h => hk (Nat.succ_injective h)]

theorem mkNodes_getElem? {T D : Type} (l : List (Event T D)) :
    ∀ i k, (mkNodes i l)[k]? =
      l[k]?.map (fun e => LinkNode.mk e (if k + 1 < l.length then some (i + k + 1) else none)) := by
  induction l with
  | nil => intro i k; simp [mkNodes]
  | cons e es ih =>
    intro i k
    cases k with
    | zero =>
      by_cases hes : es.isEmpty
      · have : es = [] := List.isEmpty_iff.mp hes
        subst this
        simp [mkNodes]
      · have hne : es ≠ [] := fun h => hes (by simp [h])
        have : 0 < es.length := List.length_pos.mpr hne
        simp [mkNodes, hes]
        omega
    | succ k =>
      simp only [mkNodes, List.getElem?_cons_succ]
      rw [ih]
      have harith : i + (k + 1) + 1 = i + 1 + k + 1 := by omega
      have hlt : (k + 1 + 1 < es.length + 1) = (k + 1 < es.length) := by
        simp only [eq_iff_iff]
        omega
      simp [List.length_cons, harith, hlt]

theorem setNext_append {T D : Type} (A B : List (LinkNode T D)) :
    ∀ h j, h < A.length → setNext (A ++ B) h j = setNext A h j ++ B := by
  induction A with
  | nil => intro h j hh; simp at hh
  | cons nd rest ih =>
    intro h j hh
    cases h with
    | zero => simp [setNext]
    | succ n =>
      simp only [List.cons_append, setNext, List.cons.injEq, true_and]
      exact ih n j (by simpa using hh)

theorem mkNodes_append {T D : Type} (l : List (Event T D)) (e : Event T D) :
    ∀ i, l ≠ [] → mkNodes i (l ++ [e]) =
      setNext (mkNodes i l) (l.length - 1) (some (i + l.length)) ++ [LinkNode.mk e none] := by
  induction l with
  | nil => intro i h; cases h rfl
  | cons a l2 ih =>
    intro i _
    by_cases hl : l2 = []
    · subst hl
      simp [mkNodes, setNext]
    · have hne : (l2 ++ [e]).isEmpty = false := by simp
      have hle : l2.isEmpty = false := by simp [hl]
      simp only [List.cons_append, mkNodes, List.append_eq, hne, hle, List.length_cons,
        Bool.false_eq_true, if_false]
      have hidx : l2.length + 1 - 1 = (l2.length - 1) + 1 := by
        have : 0 < l2.length := List.length_pos.mpr hl
        omega
      rw [hidx]
      simp only [setNext, List.cons_append, List.cons.injEq, List.append_eq]
      refine ⟨by simp, ?_⟩
      have harith : i + 1 + l2.length = i + (l2.length + 1) := by omega
      rw [ih (i + 1) hl, harith]

theorem push_mkChain {T D : Type} (es : List (Event T D)) (e : Event T D) :
    push (mkChain es) es.length e = (mkChain (es ++ [e]), es.length + 1) := by
  have hlen : (mkChain es).nodes.length = es.length + 1 := by
    show (mkNodes 0 (Event.Start :: es)).length = _
    rw [mkNodes_length]
    rfl
  show (LogState.mk (setNext ((mkChain es).nodes ++ [LinkNode.mk e none]) es.length
      (some (mkChain es).nodes.length)), (mkChain es).nodes.length) = _
  rw [hlen]
  have h1 : setNext ((mkChain es).nodes ++ [LinkNode.mk e none]) es.length (some (es.length + 1))
      = setNext (mkChain es).nodes es.length (some (es.length + 1)) ++ [LinkNode.mk e none] :=
    setNext_append _ _ _ _ (by rw [hlen]; omega)
  rw [h1]
  have h3 := mkNodes_append (Event.Start :: es) e 0 (by simp)
  have h4 : (Event.Start :: es) ++ [e] = Event.Start :: (es ++ [e]) := rfl
  rw [h4] at h3
  have h2 : mkChain (es ++ [e]) = LogState.mk
      (setNext (mkChain es).nodes es.length (some (es.length + 1)) ++ [LinkNode.mk e none]) := by
    show LogState.mk (mkNodes 0 (Event.Start :: (es ++ [e]))) = _
    rw [h3]
    simp only [List.length_cons, Nat.add_sub_cancel, Nat.zero_add]
    rfl
  rw [h2]

theorem pushList_mkChain {T D : Type} (es2 : List (Event T D)) :
    ∀ es, pushList (mkChain es) es.length es2 = (mkChain (es ++ es2), es.length + es2.length) := by
  induction es2 with
  | nil => intro es; simp [pushList]
  | cons e rest ih =>
    intro es
    show pushList (push (mkChain es) es.length e).1 (push (mkChain es) es.length e).2 rest = _
    rw [push_mkChain]
    have hlen2 : es.length + 1 = (es ++ [e]).length := by simp
    rw [hlen2]
    show pushList (mkChain (es ++ [e])) (es ++ [e]).length rest = _
    rw [ih (es ++ [e])]
    have hl : (es ++ [e]) ++ rest = es ++ e :: rest := by simp
    rw [hl]
    simp only [Prod.mk.injEq, List.length_append, List.length_cons, List.length_nil, true_and]
    omega

theorem pushList_initLog {T D : Type} (es : List (Event T D)) :
    pushList (initLog : LogState T D) 0 es = (mkChain es, es.length) := by
  have h0 : (initLog : LogState T D) = mkChain [] := rfl
  rw [h0]
  have h := pushList_mkChain es ([] : List (Event T D))
  simpa using h

theorem linkNext_mkChain_some {T D : Type} (es : List (Event T D)) (c : Nat) (e : Event T D)
    (he : es[c]? = some e) : linkNext (mkChain es) c = (some e, c + 1) := by
  have hc : c < es.length := by
    by_contra hlt
    push_neg at hlt
    rw [List.getElem?_eq_none hlt] at he
    cases he
  have hsc : (Event.Start :: es)[c + 1]? = some e := by
    rw [List.getElem?_cons_succ]
    exact he
  obtain ⟨x, hx⟩ : ∃ x, (Event.Start :: es)[c]? = some x :=
    ⟨_, List.getElem?_eq_getElem (by simp; omega)⟩
  have h1 : (mkChain es).nodes[c]? = some (LinkNode.mk x (some (c + 1))) := by
    have h := mkNodes_getElem? (Event.Start :: es) 0 c
    rw [hx] at h
    simp only [Option.map_some'] at h
    have hcond : c + 1 < (Event.Start :: es).length := by simp; omega
    rw [if_pos hcond] at h
    simpa using h
  have h2 : ∃ o, (mkChain es).nodes[c + 1]? = some (LinkNode.mk e o) := by
    have h := mkNodes_getElem? (Event.Start :: es) 0 (c + 1)
    rw [hsc] at h
    simp only [Option.map_some'] at h
    exact ⟨_, h⟩
  obtain ⟨o, h2⟩ := h2
  simp [linkNext, h1, h2]

theorem linkNext_mkChain_none {T D : Type} (es : List (Event T D)) (c : Nat)
    (hc : es.length ≤ c) : linkNext (mkChain es) c = (none, c) := by
  rcases Nat.eq_or_lt_of_le hc with hceq | hclt
  · obtain ⟨x, hx⟩ : ∃ x, (Event.Start :: es)[c]? = some x :=
      ⟨_, List.getElem?_eq_getElem (by simp; omega)⟩
    have h1 : (mkChain es).nodes[c]? = some (LinkNode.mk x none) := by
      have h := mkNodes_getElem? (Event.Start :: es) 0 c
      rw [hx] at h
      simp only [Option.map_some'] at h
      have hcond : ¬ (c + 1 < (Event.Start :: es).length) := by simp; omega
      rw [if_neg hcond] at h
      exact h
    simp [linkNext, h1]
  · have hnone : (Event.Start :: es)[c]? = none := List.getElem?_eq_none (by simp; omega)
    have h := mkNodes_getElem? (Event.Start :: es) 0 c
    rw [hnone] at h
    simp only [Option.map_none'] at h
    have h2 : (mkChain es).nodes[c]? = none := h
    simp [linkNext, h2]

theorem runSched_eq_consumeN {T D : Type} (st : LogState T D) :
    ∀ (sched : List Bool) c1 c2,
      runSched st sched c1 c2
        = (consumeN st (sched.count true) c1, consumeN st (sched.count false) c2) := by
  intro sched
  induction sched with
  | nil => intro c1 c2; rfl
  | cons b s ih =>
    intro c1 c2
    cases b with
    | true =>
      show runSched st s (consume st c1) c2 = _
      rw [ih]
      have ht : (true :: s).count true = s.count true + 1 := by simp
      have hf : (true :: s).count false = s.count false := by simp
      rw [ht, hf]
      rfl
    | false =>
      show runSched st s c1 (consume st c2) = _
      rw [ih]
      have ht : (false :: s).count true = s.count true := by simp
      have hf : (false :: s).count false = s.count false + 1 := by simp
      rw [ht, hf]
      rfl

theorem consumeN_mkChain {T D : Type} (L : List (Event T D)) :
    ∀ (k p : Nat) (acc : List (Event T D)), p ≤ L.length →
      consumeN (mkChain L) k (p, acc) = (min (p + k) L.length, acc ++ (L.drop p).take k) := by
  intro k
  induction k with
  | zero =>
    intro p acc hp
    simp only [consumeN, Nat.add_zero, List.take_zero, List.append_nil, Prod.mk.injEq]
    exact ⟨by omega, trivial⟩
  | succ k ih =>
    intro p acc hp
    rcases Nat.lt_or_ge p L.length with hlt | hge
    · obtain ⟨e, he⟩ : ∃ e, L[p]? = some e := ⟨_, List.getElem?_eq_getElem hlt⟩
      have hcons : consume (mkChain L) (p, acc) = (p + 1, acc ++ [e]) := by
        simp [consume, linkNext_mkChain_some L p e he]
      show consumeN (mkChain L) k (consume (mkChain L) (p, acc)) = _
      rw [hcons, ih (p + 1) (acc ++ [e]) (by omega)]
      have hm : min (p + 1 + k) L.length = min (p + (k + 1)) L.length := by omega
      have hee : L[p] = e := by
        rw [List.getElem?_eq_getElem hlt] at he
        exact Option.some.inj he
      have hdrop : L.drop p = e :: L.drop (p + 1) := by
        rw [List.drop_eq_getElem_cons hlt, hee]
      rw [hm, hdrop]
      simp
    · have hp2 : p = L.length := by omega
      subst hp2
      have hcons : consume (mkChain L) (L.length, acc) = (L.length, acc) := by
        simp [consume, linkNext_mkChain_none L L.length le_rfl]
      show consumeN (mkChain L) k (consume (mkChain L) (L.length, acc)) = _
      rw [hcons, ih L.length acc le_rfl]
      simp only [List.drop_length, List.take_nil, List.append_nil, Prod.mk.injEq]
      exact ⟨by omega, trivial⟩

/-- Claim C6: for the shared in-memory log, `push(event)` creates a new
node holding the event, links it as the current node's successor, and
advances the producer handle to the new node; `next()` on a consumer
handle, when the held node has a successor, advances the handle to that
successor and returns the successor's event, and otherwise returns none
leaving the handle unchanged. -/
theorem log_push_next_spec {T D : Type} (st : LogState T D) (h : Nat) (e : Event T D)
    (hh : h < st.nodes.length) :
    ((push st h e).2 = st.nodes.length) ∧
    ((push st h e).1.nodes[st.nodes.length]? = some (LinkNode.mk e none)) ∧
    (∀ nd, st.nodes[h]? = some nd →
      (push st h e).1.nodes[h]? = some (LinkNode.mk nd.event (some st.nodes.length))) ∧
    (∀ i, i ≠ h → (push st h e).1.nodes[i]? = (st.nodes ++ [LinkNode.mk e none])[i]?) ∧
    (∀ nd j nd2, st.nodes[h]? = some nd → nd.next = some j → st.nodes[j]? = some nd2 →
      linkNext st h = (some nd2.event, j)) ∧
    (∀ nd, st.nodes[h]? = some nd → nd.next = none → linkNext st h = (none, h)) := by
  refine ⟨rfl, ?_, ?_, ?_, ?_, ?_⟩
  · show (setNext (st.nodes ++ [LinkNode.mk e none]) h (some st.nodes.length))[st.nodes.length]? = _
    rw [setNext_getElem?, if_neg (by omega)]
    exact List.getElem?_concat_length _ _
  · intro nd hnd
    show (setNext (st.nodes ++ [LinkNode.mk e none]) h (some st.nodes.length))[h]? = _
    rw [setNext_getElem?, if_pos rfl]
    have hap : (st.nodes ++ [LinkNode.mk e none])[h]? = st.nodes[h]? :=
      List.getElem?_append_left hh
    rw [hap, hnd]
    rfl
  · intro i hi
    show (setNext (st.nodes ++ [LinkNode.mk e none]) h (some st.nodes.length))[i]? = _
    rw [setNext_getElem?, if_neg hi]
  · intro nd j nd2 h1 h2 h3
    simp [linkNext, h1, h2, h3]
  · intro nd h1 h2
    simp [linkNext, h1, h2]

theorem log_push_next_spec_witness :
    0 < (initLog : LogState Nat Nat).nodes.length ∧
    (((push (initLog : LogState Nat Nat) 0 (Event.Messages 0 [1, 2])).2
        = (initLog : LogState Nat Nat).nodes.length) ∧
    ((push (initLog : LogState Nat Nat) 0 (Event.Messages 0 [1, 2])).1.nodes[
        (initLog : LogState Nat Nat).nodes.length]?
        = some (LinkNode.mk (Event.Messages 0 [1, 2]) none)) ∧
    (∀ nd, (initLog : LogState Nat Nat).nodes[0]? = some nd →
      (push (initLog : LogState Nat Nat) 0 (Event.Messages 0 [1, 2])).1.nodes[0]?
        = some (LinkNode.mk nd.event (some (initLog : LogState Nat Nat).nodes.length))) ∧
    (∀ i, i ≠ 0 →
      (push (initLog : LogState Nat Nat) 0 (Event.Messages 0 [1, 2])).1.nodes[i]?
        = ((initLog : LogState Nat Nat).nodes ++ [LinkNode.mk (Event.Messages 0 [1, 2]) none])[i]?) ∧
    (∀ nd j nd2, (initLog : LogState Nat Nat).nodes[0]? = some nd → nd.next = some j →
      (initLog : LogState Nat Nat).nodes[j]? = some nd2 →
      linkNext (initLog : LogState Nat Nat) 0 = (some nd2.event, j)) ∧
    (∀ nd, (initLog : LogState Nat Nat).nodes[0]? = some nd → nd.next = none →
      linkNext (initLog : LogState Nat Nat) 0 = (none, 0))) :=
  ⟨by decide, log_push_next_spec (initLog : LogState Nat Nat) 0 (Event.Messages 0 [1, 2]) (by decide)⟩

/-- Claim C7: two consumer handles cloned from the producer's position
before `N` further events are appended each observe, through their own
interleaved sequences of `next()` calls, all `N` subsequently appended
events in append order; the interleaving (`sched`) of the two handles'
calls does not change what either observes. -/
theorem log_fan_out {T D : Type} (es es2 : List (Event T D)) (sched : List Bool)
    (st1 st2 : LogState T D) (p q : Nat)
    (hpush1 : pushList (initLog : LogState T D) 0 es = (st1, p))
    (hpush2 : pushList st1 p es2 = (st2, q))
    (h1 : es2.length ≤ sched.count true) (h2 : es2.length ≤ sched.count false) :
    runSched st2 sched (p, []) (p, [])
      = ((p + es2.length, es2), (p + es2.length, es2)) := by
  rw [pushList_initLog] at hpush1
  obtain ⟨h1e, h2e⟩ := Prod.mk.inj hpush1
  subst h1e
  subst h2e
  rw [pushList_mkChain] at hpush2
  obtain ⟨h3e, h4e⟩ := Prod.mk.inj hpush2
  subst h3e
  subst h4e
  rw [runSched_eq_consumeN]
  rw [consumeN_mkChain (es ++ es2) (sched.count true) es.length [] (by simp)]
  rw [consumeN_mkChain (es ++ es2) (sched.count false) es.length [] (by simp)]
  have hdrop : (es ++ es2).drop es.length = es2 := List.drop_left es es2
  rw [hdrop]
  have ht1 : es2.take (sched.count true) = es2 := List.take_of_length_le h1
  have ht2 : es2.take (sched.count false) = es2 := List.take_of_length_le h2
  rw [ht1, ht2]
  have hm1 : min (es.length + sched.count true) (es ++ es2).length
      = es.length + es2.length := by
    simp only [List.length_append]
    omega
  have hm2 : min (es.length + sched.count false) (es ++ es2).length
      = es.length + es2.length := by
    simp only [List.length_append]
    omega
  rw [hm1, hm2]
  simp

theorem log_fan_out_witness :
    pushList (initLog : LogState Nat Nat) 0 [Event.Progress [(0, 1)]]
        = (mkChain [Event.Progress [(0, 1)]], 1) ∧
    pushList (mkChain [Event.Progress [(0, 1)]]) 1 [Event.Messages 0 [5], Event.Progress [(0, -1)]]
        = (mkChain [Event.Progress [(0, 1)], Event.Messages 0 [5], Event.Progress [(0, -1)]], 3) ∧
    (2 : Nat) ≤ [true, false, true, false, true].count true ∧
    (2 : Nat) ≤ [true, false, true, false, true].count false ∧
    runSched (mkChain [Event.Progress [(0, 1)], Event.Messages 0 [5], Event.Progress [(0, -1)]])
        [true, false, true, false, true] (1, []) (1, [])
      = ((1 + 2, [Event.Messages 0 [5], Event.Progress [(0, -1)]]),
         (1 + 2, [Event.Messages 0 [5], Event.Progress [(0, -1)]])) :=
  ⟨by decide, by decide, by decide, by decide,
    log_fan_out [Event.Progress [(0, 1)]] [Event.Messages 0 [5], Event.Progress [(0, -1)]]
      [true, false, true, false, true]
      (mkChain [Event.Progress [(0, 1)]])
      (mkChain [Event.Progress [(0, 1)], Event.Messages 0 [5], Event.Progress [(0, -1)]])
      1 3 (by decide) (by decide) (by decide) (by decide)⟩

/-- Claim C10: a consumer handle on the in-memory log never yields the
event of the node it was created at — a successful `next()` moves to
index `c + 1` and returns the `c`-th pushed event; in particular the
returned position is never the head sentinel node 0, so the `Start`
sentinel placed by `EventLink::new()` is never returned, and if no
pushed event is `Start` then `next()` never delivers a `Start` event. -/
theorem log_next_skips_origin {T D : Type} (es : List (Event T D)) (c : Nat)
    (e : Event T D) (c2 : Nat)
    (hnext : linkNext (pushList (initLog : LogState T D) 0 es).1 c = (some e, c2)) :
    c2 = c + 1 ∧ es[c]? = some e ∧ e ∈ es ∧ c2 ≠ 0 ∧
      (Event.Start ∉ es → e ≠ Event.Start) := by
  rw [pushList_initLog] at hnext
  have hnext2 : linkNext (mkChain es) c = (some e, c2) := hnext
  rcases hx : es[c]? with _ | e2
  · rw [linkNext_mkChain_none es c (List.getElem?_eq_none_iff.mp hx)] at hnext2
    cases hnext2
  · have hsome := linkNext_mkChain_some es c e2 hx
    have heq := hsome.symm.trans hnext2
    obtain ⟨he, hc⟩ := Prod.mk.inj heq
    obtain rfl : e2 = e := Option.some.inj he
    refine ⟨hc.symm, rfl, ?_, by omega, ?_⟩
    · exact List.getElem?_mem hx
    · intro hnot heq2
      subst heq2
      exact hnot (List.getElem?_mem hx)

theorem log_next_skips_origin_witness :
    linkNext (pushList (initLog : LogState Nat Nat) 0 [Event.Progress [], Event.Messages 3 [7]]).1 1
        = (some (Event.Messages 3 [7]), 2) ∧
    ((2 : Nat) = 1 + 1 ∧
      ([Event.Progress [], Event.Messages 3 [7]] : List (Event Nat Nat))[1]?
        = some (Event.Messages 3 [7]) ∧
      (Event.Messages 3 [7] : Event Nat Nat) ∈ [Event.Progress [], Event.Messages 3 [7]] ∧
      (2 : Nat) ≠ 0 ∧
      ((Event.Start : Event Nat Nat) ∉ [Event.Progress [], Event.Messages 3 [7]] →
        (Event.Messages 3 [7] : Event Nat Nat) ≠ Event.Start)) :=
  ⟨by decide,
    log_next_skips_origin [Event.Progress [], Event.Messages 3 [7]] 1
      (Event.Messages 3 [7]) 2 (by decide)⟩

theorem replayPull_records {T D : Type} [DecidableEq T] (evs : List (Event T D)) :
    ∀ (internal : CountMap T) (out : List (T × D)),
      (replayPull evs internal out).2 = out ++ replayRecords evs := by
  induction evs with
  | nil => intro internal out; simp [replayPull, replayRecords]
  | cons e rest ih =>
    intro internal out
    cases e with
    | Start => simp [replayPull, replayRecords, ih]
    | Progress vec => simp [replayPull, replayRecords, ih]
    | Messages t ds => simp [replayPull, replayRecords, ih, List.append_assoc]

theorem replayPull_count {T D : Type} [DecidableEq T] (evs : List (Event T D)) :
    ∀ (internal : CountMap T) (out : List (T × D)) (t : T),
      CountMap.count (replayPull evs internal out).1 t
        = CountMap.count internal t + totalDeltas evs t := by
  induction evs with
  | nil => intro internal out t; simp [replayPull, totalDeltas]
  | cons e rest ih =>
    intro internal out t
    cases e with
    | Start => simp [replayPull, totalDeltas, ih]
    | Progress vec =>
      simp only [replayPull, totalDeltas, ih, count_applyBatch]
      ring
    | Messages t2 ds => simp [replayPull, totalDeltas, ih]

theorem totalDeltas_append {T D : Type} [DecidableEq T] (a b : List (Event T D)) (t : T) :
    totalDeltas (a ++ b) t = totalDeltas a t + totalDeltas b t := by
  induction a with
  | nil => simp [totalDeltas]
  | cons e rest ih =>
    cases e with
    | Start => simp only [List.cons_append, totalDeltas, List.append_eq, ih]
    | Progress vec =>
      simp only [List.cons_append, totalDeltas, List.append_eq, ih]
      ring
    | Messages t2 ds => simp only [List.cons_append, totalDeltas, List.append_eq, ih]

theorem totalDeltas_capturePull {T D : Type} [DecidableEq T] (ins : List (T × List D)) (t : T) :
    totalDeltas (capturePull ins) t = 0 := by
  induction ins with
  | nil => rfl
  | cons p rest ih =>
    show totalDeltas (Event.Messages p.1 p.2 :: capturePull rest) t = 0
    simp only [totalDeltas]
    exact ih

theorem capturedDeltaSum_eq_totalDeltas {T D : Type} [DecidableEq T]
    (ops : List (CapOp T D)) (t : T) :
    totalDeltas (captureEvents ops) t = capturedDeltaSum ops t := by
  induction ops with
  | nil => rfl
  | cons op rest ih =>
    cases op with
    | extProgress b =>
      show totalDeltas (Event.Progress b :: captureEvents rest) t = _
      simp only [totalDeltas, capturedDeltaSum, ih]
    | sched ins =>
      show totalDeltas (capturePull ins ++ captureEvents rest) t = _
      rw [totalDeltas_append, totalDeltas_capturePull, ih]
      simp [capturedDeltaSum]

theorem replayRecords_capturePull {T D : Type} (ins : List (T × List D)) :
    replayRecords (capturePull ins)
      = ins.flatMap (fun p => p.2.map (fun d => (p.1, d))) := by
  induction ins with
  | nil => rfl
  | cons p rest ih =>
    show replayRecords (Event.Messages p.1 p.2 :: capturePull rest) = _
    simp only [replayRecords, ih, List.flatMap_cons]

theorem replayRecords_append {T D : Type} (a b : List (Event T D)) :
    replayRecords (a ++ b) = replayRecords a ++ replayRecords b := by
  induction a with
  | nil => rfl
  | cons e rest ih =>
    cases e with
    | Start => simp only [List.cons_append, replayRecords, List.append_eq, ih]
    | Progress vec => simp only [List.cons_append, replayRecords, List.append_eq, ih]
    | Messages t ds =>
      simp only [List.cons_append, replayRecords, List.append_eq, ih, List.append_assoc]

/-- Claim C1: replaying a captured history reproduces the data records
in the same relative order they were captured, both within a timestamp
and across timestamps: the capture operator pushes one
`Messages(timestamp, batch)` event per consumed input batch in
consumption order, and replay, for each Messages event in iterator
order, emits every record of the batch in order into an output session
scoped to that timestamp, so the replayed record sequence equals the
captured one. -/
theorem replay_reproduces_record_order {T D : Type} [DecidableEq T]
    (ops : List (CapOp T D)) (internal : CountMap T) :
    (replayPull (captureEvents ops) internal []).2 = capturedRecords ops := by
  rw [replayPull_records]
  simp only [List.nil_append]
  induction ops with
  | nil => rfl
  | cons op rest ih =>
    cases op with
    | extProgress b =>
      show replayRecords (Event.Progress b :: captureEvents rest) = _
      simp only [replayRecords, ih, capturedRecords]
    | sched ins =>
      show replayRecords (capturePull ins ++ captureEvents rest) = _
      rw [replayRecords_append, replayRecords_capturePull, ih]
      rfl

/-- Claim C2: conservation — for every timestamp, the summed deltas of
all Progress events the capture side pushes over a schedule equal the
initial CountMap the replay side derives in `get_internal_summary` from
the first event plus all updates it applies to `internal[0]` while
draining the remaining events in `pull_internal_progress`. -/
theorem progress_delta_conservation {T D : Type} [DecidableEq T]
    (ops : List (CapOp T D)) (t : T) (e : Event T D) (rest : List (Event T D))
    (hlog : captureEvents ops = e :: rest) :
    ∃ m0, getInternalSummary ((captureEvents ops).map some) = some (m0, rest.map some) ∧
      CountMap.count (replayPull rest m0 []).1 t = capturedDeltaSum ops t := by
  have hsum : totalDeltas (captureEvents ops) t = capturedDeltaSum ops t :=
    capturedDeltaSum_eq_totalDeltas ops t
  rw [hlog] at hsum
  rw [hlog]
  cases e with
  | Start =>
    refine ⟨[], rfl, ?_⟩
    rw [replayPull_count]
    simp only [CountMap.count_nil, zero_add]
    rw [← hsum]
    simp [totalDeltas]
  | Progress vec =>
    refine ⟨applyBatch [] vec, rfl, ?_⟩
    rw [replayPull_count, count_applyBatch]
    simp only [CountMap.count_nil, zero_add]
    rw [← hsum]
    simp only [totalDeltas]
  | Messages t2 ds =>
    refine ⟨[], rfl, ?_⟩
    rw [replayPull_count]
    simp only [CountMap.count_nil, zero_add]
    rw [← hsum]
    simp [totalDeltas]

theorem progress_delta_conservation_witness :
    captureEvents [CapOp.extProgress [((0 : Nat), (1 : Int))], CapOp.sched [(0, [(4 : Nat)])],
        CapOp.extProgress [(0, -1)]]
      = (Event.Progress [((0 : Nat), (1 : Int))] : Event Nat Nat)
        :: [Event.Messages 0 [4], Event.Progress [(0, -1)]] ∧
    (∃ m0, getInternalSummary ((captureEvents [CapOp.extProgress [((0 : Nat), (1 : Int))],
          CapOp.sched [(0, [(4 : Nat)])], CapOp.extProgress [(0, -1)]]).map some)
        = some (m0, ([Event.Messages 0 [4], Event.Progress [(0, -1)]] :
            List (Event Nat Nat)).map some) ∧
      CountMap.count (replayPull [Event.Messages 0 [4], Event.Progress [(0, -1)]] m0 []).1 0
        = capturedDeltaSum [CapOp.extProgress [((0 : Nat), (1 : Int))],
            CapOp.sched [(0, [(4 : Nat)])], CapOp.extProgress [(0, -1)]] 0) :=
  ⟨by decide,
    progress_delta_conservation
      [CapOp.extProgress [((0 : Nat), (1 : Int))], CapOp.sched [(0, [(4 : Nat)])],
        CapOp.extProgress [(0, -1)]]
      0 (Event.Progress [(0, 1)]) [Event.Messages 0 [4], Event.Progress [(0, -1)]]
      (by decide)⟩

/-- Claim C3: `get_internal_summary` polls the event consumer until an
event is available (unavailable responses are skipped); if the first
available event is `Progress(deltas)` the returned CountMap holds
exactly the per-timestamp sums of the deltas; if it is anything else
(Messages or Start) that event is consumed and discarded and the
returned CountMap is empty. -/
theorem replay_initial_summary_spec {T D : Type} [DecidableEq T]
    (responses rest : List (Option (Event T D))) (e : Event T D)
    (hfirst : pollFirst responses = some (e, rest)) :
    (∀ rs : List (Option (Event T D)),
      getInternalSummary ((none : Option (Event T D)) :: rs) = getInternalSummary rs) ∧
    (∀ vec, e = Event.Progress vec →
      ∃ m, getInternalSummary responses = some (m, rest) ∧
        ∀ t, CountMap.count m t = CountMap.count vec t) ∧
    ((∀ vec, e ≠ Event.Progress vec) →
      getInternalSummary responses = some (([] : CountMap T), rest)) := by
  refine ⟨fun rs => rfl, ?_, ?_⟩
  · intro vec he
    subst he
    refine ⟨applyBatch [] vec, ?_, ?_⟩
    · unfold getInternalSummary
      rw [hfirst]
    · intro t
      rw [count_applyBatch]
      simp [CountMap.count_nil]
  · intro hne
    unfold getInternalSummary
    rw [hfirst]
    cases e with
    | Start => rfl
    | Progress vec => exact absurd rfl (hne vec)
    | Messages t2 ds => rfl

theorem replay_initial_summary_witness :
    pollFirst [none, some (Event.Progress [(0, 2), (0, 3)] : Event Nat Nat)]
      = some (Event.Progress [(0, 2), (0, 3)], []) ∧
    ((∀ rs : List (Option (Event Nat Nat)),
      getInternalSummary ((none : Option (Event Nat Nat)) :: rs) = getInternalSummary rs) ∧
    (∀ vec, (Event.Progress [(0, 2), (0, 3)] : Event Nat Nat) = Event.Progress vec →
      ∃ m, getInternalSummary [none, some (Event.Progress [(0, 2), (0, 3)] : Event Nat Nat)]
          = some (m, []) ∧
        ∀ t, CountMap.count m t = CountMap.count vec t) ∧
    ((∀ vec, (Event.Progress [(0, 2), (0, 3)] : Event Nat Nat) ≠ Event.Progress vec) →
      getInternalSummary [none, some (Event.Progress [(0, 2), (0, 3)] : Event Nat Nat)]
        = some (([] : CountMap Nat), []))) :=
  ⟨by decide,
    replay_initial_summary_spec [none, some (Event.Progress [(0, 2), (0, 3)])] []
      (Event.Progress [(0, 2), (0, 3)]) (by decide)⟩

/-- Claim C8: on `set_external_summary` and on every
`push_external_progress` call, the capture operator immediately pushes
one Progress event containing exactly the current content of
`counts[0]` and then clears `counts[0]`; hence over any run starting
from an empty accumulator, the i-th pushed event carries exactly the
i-th observed delta batch and the accumulator is empty after every
call, so no observed frontier change is reported in more than one
Progress event. -/
theorem capture_progress_no_double_report {T D : Type} [DecidableEq T]
    (bs : List (List (T × Int))) :
    capProgressRun (D := D) bs []
        = (bs.map (fun b => Event.Progress (applyBatch [] b)), []) ∧
    (∀ counts : CountMap T,
      setExternalSummary (D := D) counts = (Event.Progress counts, []) ∧
      pushExternalProgress (D := D) counts = (Event.Progress counts, [])) := by
  constructor
  · induction bs with
    | nil => rfl
    | cons b rest ih => simp [capProgressRun, pushExternalProgress, ih]
  · intro counts
    exact ⟨rfl, rfl⟩

/-- Claim C5: when decoding succeeds at the current consumed offset,
`EventReader::next` returns the decoded event and advances the consumed
offset by exactly the number of bytes the decode consumed (the length
of the slice minus the length of the remaining slice), leaving the
buffer untouched and performing no read on the underlying source. -/
theorem reader_next_decode_success {T D : Type}
    (decode : List Nat → Option (Event T D × Nat)) (st : ReaderState)
    (e : Event T D) (restLen : Nat)
    (hv : st.valid = st.buff1.length)
    (hc : st.consumed ≤ st.valid)
    (hdec : decode (st.buff1.drop st.consumed) = some (e, restLen))
    (hrest : restLen ≤ (st.buff1.drop st.consumed).length) :
    readerNext decode st
      = (some e,
         { st with consumed := st.consumed + ((st.buff1.length - st.consumed) - restLen) }) := by
  have hlen : (st.buff1.drop st.consumed).length = st.buff1.length - st.consumed :=
    List.length_drop st.consumed st.buff1
  have harith : st.valid - restLen
      = st.consumed + ((st.buff1.length - st.consumed) - restLen) := by
    rw [hlen] at hrest
    omega
  have hred : readerNext decode st = (some e, { st with consumed := st.valid - restLen }) := by
    unfold readerNext
    rw [hdec]
  rw [hred, harith]

theorem reader_next_success_witness :
    (ReaderState.mk [7, 8] 0 2 []).valid = (ReaderState.mk [7, 8] 0 2 []).buff1.length ∧
    (ReaderState.mk [7, 8] 0 2 []).consumed ≤ (ReaderState.mk [7, 8] 0 2 []).valid ∧
    (fun bs : List Nat => if bs.length = 0 then none
        else some ((Event.Start : Event Nat Nat), bs.length - 1))
      ((ReaderState.mk [7, 8] 0 2 []).buff1.drop (ReaderState.mk [7, 8] 0 2 []).consumed)
      = some (Event.Start, 1) ∧
    readerNext (fun bs : List Nat => if bs.length = 0 then none
        else some ((Event.Start : Event Nat Nat), bs.length - 1))
      (ReaderState.mk [7, 8] 0 2 [])
      = (some Event.Start, ReaderState.mk [7, 8] 1 2 []) :=
  ⟨by decide, by decide, by decide,
    reader_next_decode_success
      (fun bs : List Nat => if bs.length = 0 then none
        else some ((Event.Start : Event Nat Nat), bs.length - 1))
      (ReaderState.mk [7, 8] 0 2 []) Event.Start 1
      (by decide) (by decide) (by decide) (by decide)⟩

/-- Claim C4: when decoding fails at the current consumed offset,
`EventReader::next` compacts its buffer (discards the consumed prefix,
shifting the remainder to the front), performs exactly one read on the
underlying source, and returns none whether or not new bytes arrived;
a read error leaves the very same state as a read returning zero bytes
(the `Err` and `Ok []` cases produce one identical equation) and is
never surfaced to the caller. -/
theorem reader_next_decode_failure {T D : Type}
    (decode : List Nat → Option (Event T D × Nat)) (st : ReaderState)
    (r : ReadResult) (rs : List ReadResult)
    (hv : st.valid = st.buff1.length)
    (hdec : decode (st.buff1.drop st.consumed) = none)
    (hr : st.reads = r :: rs) :
    readerNext decode st
      = (none,
         ReaderState.mk
           (st.buff1.drop st.consumed
             ++ (match r with | ReadResult.ok chunk => chunk | ReadResult.err => []))
           0
           (st.buff1.drop st.consumed
             ++ (match r with | ReadResult.ok chunk => chunk | ReadResult.err => [])).length
           rs) := by
  obtain ⟨b1, co, va, rd⟩ := st
  simp only at hv hdec hr
  subst hv
  subst hr
  cases r with
  | ok chunk =>
    by_cases hco : 0 < co
    · simp [readerNext, hdec, hco]
    · have hco0 : co = 0 := by omega
      subst hco0
      simp only [List.drop_zero] at hdec
      simp [readerNext, hdec]
  | err =>
    by_cases hco : 0 < co
    · simp [readerNext, hdec, hco]
    · have hco0 : co = 0 := by omega
      subst hco0
      simp only [List.drop_zero] at hdec
      simp [readerNext, hdec]

theorem reader_next_failure_witness :
    (ReaderState.mk [5, 6] 1 2 [ReadResult.ok [9]]).valid
        = (ReaderState.mk [5, 6] 1 2 [ReadResult.ok [9]]).buff1.length ∧
    (fun _ : List Nat => (none : Option (Event Nat Nat × Nat)))
      ((ReaderState.mk [5, 6] 1 2 [ReadResult.ok [9]]).buff1.drop
        (ReaderState.mk [5, 6] 1 2 [ReadResult.ok [9]]).consumed) = none ∧
    readerNext (fun _ : List Nat => (none : Option (Event Nat Nat × Nat)))
        (ReaderState.mk [5, 6] 1 2 [ReadResult.ok [9]])
      = (none, ReaderState.mk [6, 9] 0 2 []) :=
  ⟨by decide, by decide,
    reader_next_decode_failure (fun _ : List Nat => (none : Option (Event Nat Nat × Nat)))
      (ReaderState.mk [5, 6] 1 2 [ReadResult.ok [9]]) (ReadResult.ok [9]) []
      (by decide) (by decide) (by decide)⟩

/-- Claim C9: `EventWriter::push` serializes the event into its scratch
buffer, writes the entire buffer to the sink in one single write call,
and then clears the scratch buffer, so the buffer is empty after every
successful push; a failed write aborts (is fatal) rather than being
retried or reported recoverably. -/
theorem writer_push_spec {T D : Type} (encode : Event T D → List Nat)
    (st : WriterState) (e : Event T D) (hbuf : st.buffer = []) :
    writerPush encode st e true
        = some (WriterState.mk [] (st.written ++ [encode e])) ∧
    writerPush encode st e false = none := by
  constructor
  · simp [writerPush, hbuf]
  · rfl

theorem writer_push_spec_witness :
    (WriterState.mk [] [[0]]).buffer = [] ∧
    (writerPush (fun _ => [1, 2, 3]) (WriterState.mk [] [[0]]) (Event.Start : Event Nat Nat) true
        = some (WriterState.mk [] ((WriterState.mk [] [[0]]).written ++ [[1, 2, 3]])) ∧
     writerPush (fun _ => [1, 2, 3]) (WriterState.mk [] [[0]]) (Event.Start : Event Nat Nat) false
        = none) :=
  ⟨rfl,
    writer_push_spec (fun _ => [1, 2, 3]) (WriterState.mk [] [[0]]) Event.Start rfl⟩

end TimelyCapture
